import Mathlib

/-!
Shallow embedding of the `sendme` content-addressed file-transfer program
(provider, getter, collection builder, ticket codec) and proofs of the
specification claims about it.

Bytes are modelled as `Nat` values (< 256 where it matters); byte strings as
`List Nat`.  Machine arithmetic (`u64`) is `Nat` with explicit `% 2 ^ 64`
where overflow matters.  Fallible operations return `Option`.
-/

namespace Sendme

/-! ## Little-endian byte encoding (`u64::from_le_bytes` / `to_le_bytes`) -/

/-- `k` little-endian bytes of `n` (`u64::to_le_bytes` for `k = 8`). -/
def leBytes : Nat → Nat → List Nat
  | 0, _ => []
  | k + 1, n => n % 256 :: leBytes k (n / 256)

/-- Decode a little-endian byte list (`u64::from_le_bytes` for length 8). -/
def leDecode : List Nat → Nat
  | [] => 0
  | b :: rest => b + 256 * leDecode rest

theorem leBytes_length (k n : Nat) : (leBytes k n).length = k := by
  induction k generalizing n with
  | zero => rfl
  | succ k ih => simp [leBytes, ih]

theorem base_mod_helper (a b r m : Nat) (hr : r < 256) (hb : b < m) :
    (256 * m * a + (256 * b + r)) % (256 * m) = 256 * b + r := by
  rw [Nat.mul_add_mod]
  apply Nat.mod_eq_of_lt
  calc 256 * b + r < 256 * b + 256 := by omega
    _ = 256 * (b + 1) := by ring
    _ ≤ 256 * m := Nat.mul_le_mul_left 256 hb

theorem leDecode_leBytes (k n : Nat) : leDecode (leBytes k n) = n % 256 ^ k := by
  induction k generalizing n with
  | zero => simp [leBytes, leDecode, Nat.mod_one]
  | succ k ih =>
    rw [leBytes, leDecode, ih]
    have hlt1 : n % 256 < 256 := Nat.mod_lt _ (by norm_num)
    have hlt2 : n / 256 % 256 ^ k < 256 ^ k :=
      Nat.mod_lt _ (pow_pos (by norm_num) k)
    have hrep : 256 * 256 ^ k * (n / 256 / 256 ^ k) +
        (256 * (n / 256 % 256 ^ k) + n % 256) = n := by
      have h1 := Nat.div_add_mod n 256
      have h2 := Nat.div_add_mod (n / 256) (256 ^ k)
      calc 256 * 256 ^ k * (n / 256 / 256 ^ k) + (256 * (n / 256 % 256 ^ k) + n % 256)
          = 256 * (256 ^ k * (n / 256 / 256 ^ k) + n / 256 % 256 ^ k) + n % 256 := by ring
        _ = 256 * (n / 256) + n % 256 := by rw [h2]
        _ = n := h1
    have hmod := base_mod_helper (n / 256 / 256 ^ k) (n / 256 % 256 ^ k) (n % 256)
      (256 ^ k) hlt1 hlt2
    rw [hrep] at hmod
    have hpow : (256 : Nat) ^ (k + 1) = 256 * 256 ^ k := by ring
    rw [hpow, hmod, Nat.add_comm]

theorem leDecode_leBytes_of_lt {k n : Nat} (h : n < 256 ^ k) :
    leDecode (leBytes k n) = n := by
  rw [leDecode_leBytes, Nat.mod_eq_of_lt h]

/-! ## The bao hash-tree codec (external crate `bao`) -/

/-- Number of 1024-byte BLAKE3 chunks in content of length `n`; empty content
still occupies one chunk. -/
def numChunks (n : Nat) : Nat := max 1 ((n + 1023) / 1024)

/-- `bao::encode::outboard_size`: the 8-byte LE length header plus 64 bytes
(two child hashes) per parent node; a tree over `c` chunks has `c - 1`
parent nodes. -/
def outboardSize (n : Nat) : Nat := 8 + 64 * (numChunks n - 1)

/-- `bao::encode::encoded_size`: byte length of the combined encoding of
content of length `n` (all outboard bytes interleaved with the content). -/
def encodedSize (n : Nat) : Nat := n + outboardSize n

/-- Model of the external `bao` crate's content-dependent operations, kept
abstract: `hashFn` is the root hash of a byte string, `nodesFn` the parent
node bytes of its outboard (in the pre-order the crate produces), and
`extract content outboard offset len` the byte output of
`bao::encode::SliceExtractor::new_outboard`. -/
structure BaoModel where
  hashFn : List Nat → List Nat
  nodesFn : List Nat → List Nat
  extract : List Nat → List Nat → Nat → Nat → List Nat

/-- The outboard encoding (`bao::encode::outboard` / `Encoder::new_outboard`):
the content length as an 8-byte little-endian header, then the parent nodes. -/
def BaoModel.outboardBytes (m : BaoModel) (content : List Nat) : List Nat :=
  leBytes 8 content.length ++ m.nodesFn content

/-- The `bao` size law (spec §4.1): a full-range slice extraction over a
content and any outboard emits exactly `encodedSize` bytes. Stated as an
explicit hypothesis on the abstract crate model. -/
def ExtractSizeLaw (m : BaoModel) : Prop :=
  ∀ content outboard,
    (m.extract content outboard 0 content.length).length = encodedSize content.length

/-! ## Data model: blobs, collections, database -/

/-- A root hash (32-byte BLAKE3 digest), as its byte list. -/
abbrev Hash := List Nat

/-- Modelled from the spec: `Blob` of the missing `blobs.rs` — one `{name, hash}`
manifest entry (its shape is also visible in the provider's tests). -/
structure Blob where
  name : String
  hash : Hash
deriving DecidableEq

/-- Modelled from the spec: `Collection` of the missing `blobs.rs` — the
manifest with a human label, the ordered blob list and the advisory total. -/
structure Collection where
  name : String
  blobs : List Blob
  total_blobs_size : Nat
deriving DecidableEq

/-- `BlobOrCollection` (provider.rs): a blob descriptor `Data { outboard, path,
size }` or a collection entry `(outboard, serialized bytes)`. -/
inductive BlobOrCollection
  | blob (outboard : List Nat) (path : String) (size : Nat)
  | collection (outboard : List Nat) (data : List Nat)
deriving DecidableEq

/-- The in-memory database `Arc<HashMap<Hash, BlobOrCollection>>`, as an
association list (unique keys maintained by `dbInsert`). -/
abbrev Db := List (Hash × BlobOrCollection)

def dbLookup (db : Db) (h : Hash) : Option BlobOrCollection :=
  (db.find? (fun e => decide (e.1 = h))).map (·.2)

/-- `HashMap::insert`: replace an existing binding, else append. -/
def dbInsert (db : Db) (h : Hash) (v : BlobOrCollection) : Db :=
  if db.any (fun e => decide (e.1 = h)) then
    db.map (fun e => if e.1 = h then (h, v) else e)
  else db ++ [(h, v)]

/-! ## Wire records (protocol.rs is not in the source tree) -/

/-- Modelled from the spec: the hard-coded current protocol version of the
missing `protocol.rs`; spec §6 fixes it ("Wire protocol (version 1)"). -/
def VERSION : Nat := 1

/-- Modelled from the spec: the fixed-width opaque `AuthToken` of the missing
`protocol.rs`, reduced to its byte contents. The source compares tokens in
constant time; only the compared-equal relation is observable here. -/
abbrev AuthToken := List Nat

/-- Modelled from the spec: `Handshake { version, token }`. -/
structure Handshake where
  version : Nat
  token : AuthToken

/-- `Request { id, name }`: `name` is the requested root hash. -/
structure Request where
  id : Nat
  name : Hash

/-- The response union written by the provider (`Res` as used in provider.rs). -/
inductive Res
  | foundCollection (total_blobs_size : Nat)
  | found
  | notFound
deriving DecidableEq

structure Response where
  id : Nat
  data : Res
deriving DecidableEq

/-- One value written on the provider's side of a stream: a length-prefixed
`Response` record (`write_response`) or raw payload bytes (`write_buf` /
the slice extractor's output). -/
inductive WireItem
  | record (r : Response)
  | payload (bytes : List Nat)
deriving DecidableEq

/-- Provider events (`Event` in provider.rs) relevant to a single request. -/
inductive PEvent
  | requestReceived (connection_id request_id : Nat) (hash : Hash)
  | transferCompleted (connection_id request_id : Nat)
  | transferAborted (connection_id request_id : Nat)
deriving DecidableEq

/-- `SentStatus` (provider.rs). -/
inductive SentStatus
  | sent
  | notFound
deriving DecidableEq

/-! ## Provider session engine (provider.rs) -/

/-- Embeds `send_blob` (provider.rs 367–408): look the hash up; a blob
descriptor writes a `Found` response and then the slice-extractor output over
the re-opened file (`fs path`) and the stored outboard with offset 0 and
length `size`; anything else writes a `NotFound` response. `fs` models the
filesystem's content at each path. -/
def sendBlob (m : BaoModel) (fs : String → List Nat) (db : Db) (name : Hash)
    (id : Nat) : List WireItem × SentStatus :=
  match dbLookup db name with
  | some (.blob outboard path size) =>
    ([.record ⟨id, .found⟩, .payload (m.extract (fs path) outboard 0 size)], .sent)
  | _ => ([.record ⟨id, .notFound⟩], .notFound)

/-- The `for blob in c.blobs` loop of `handle_stream` (provider.rs 318–331):
send each child in manifest order, breaking out after the first child whose
`send_blob` reported `NotFound`. The boolean is `true` iff no break happened. -/
def sendChildren (m : BaoModel) (fs : String → List Nat) (db : Db) (id : Nat) :
    List Blob → List WireItem × Bool
  | [] => ([], true)
  | b :: rest =>
    let r := sendBlob m fs db b.hash id
    match r.2 with
    | .notFound => (r.1, false)
    | .sent =>
      let rest' := sendChildren m fs db id rest
      (r.1 ++ rest'.1, rest'.2)

/-- Embeds the request dispatch of `handle_stream` (provider.rs 275–347).
The result is the wire output, the emitted events, and whether the handler
returned `Err` (true aborts the stream). A found collection entry extracts
the manifest's combined encoding, parses the manifest (`postcard::from_bytes`,
modelled by `parseC`; a failure propagates as `Err` before anything is
written), writes `FoundCollection` and the manifest encoding, runs the child
loop, and finally emits `TransferCompleted` unconditionally; everything else
writes `NotFound` and emits `TransferAborted`. -/
def handleRequest (m : BaoModel) (parseC : List Nat → Option Collection)
    (fs : String → List Nat) (db : Db) (cid : Nat) (req : Request) :
    List WireItem × List PEvent × Bool :=
  let received := PEvent.requestReceived cid req.id req.name
  match dbLookup db req.name with
  | some (.collection outboard data) =>
    let encoded := m.extract data outboard 0 data.length
    match parseC data with
    | none => ([], [received], true)
    | some c =>
      (WireItem.record ⟨req.id, .foundCollection c.total_blobs_size⟩ ::
         WireItem.payload encoded :: (sendChildren m fs db req.id c.blobs).1,
       [received, .transferCompleted cid req.id], false)
  | _ =>
    ([.record ⟨req.id, .notFound⟩], [received, .transferAborted cid req.id], false)

/-- The request loop of `handle_stream`: requests are served in order until
the client stops sending or a request handler returns `Err`. -/
def processRequests (m : BaoModel) (parseC : List Nat → Option Collection)
    (fs : String → List Nat) (db : Db) (cid : Nat) :
    List Request → List WireItem × List PEvent × Bool
  | [] => ([], [], false)
  | r :: rs =>
    let h := handleRequest m parseC fs db cid r
    if h.2.2 then (h.1, h.2.1, true)
    else
      let t := processRequests m parseC fs db cid rs
      (h.1 ++ t.1, h.2.1 ++ t.2.1, t.2.2)

/-- Embeds `handle_stream` (provider.rs 245–359) at the message level: first
the handshake record (`none` models a close before any record), whose version
must equal `VERSION` and whose token must equal the provider's token, both
checked by `ensure!` — a failure returns `Err` before anything is written,
which drops (closes) the stream; then the request loop. The third component
is `true` iff the handler returned `Err`. -/
def streamSession (m : BaoModel) (parseC : List Nat → Option Collection)
    (fs : String → List Nat) (db : Db) (token : AuthToken) (cid : Nat)
    (hs : Option Handshake) (reqs : List Request) :
    List WireItem × List PEvent × Bool :=
  match hs with
  | none => ([], [], true)
  | some h =>
    if h.version = VERSION then
      if h.token = token then processRequests m parseC fs db cid reqs
      else ([], [], true)
    else ([], [], true)

/-! ## Getter session (get.rs) -/

/-- `MAX_DATA_SIZE` (get.rs). -/
def MAX_DATA_SIZE : Nat := 1024 * 1024 * 1024

/-- The response union as get.rs matches it (`Res::Found { size, outboard }`
and `Res::NotFound`): this file is the earlier single-blob protocol variant. -/
inductive GetRes
  | found (size : Nat) (outboard : List Nat)
  | notFound
deriving DecidableEq

/-- Getter events (`Event` in get.rs), with the reader and the stats reduced
to the data the claims depend on. -/
inductive GEvent
  | connected
  | requested (size : Nat)
  | receiving
  | done (data_len : Nat)
deriving DecidableEq

/-- One item of the getter's `try_stream!` event sequence: a yielded event or
the error item that terminates the sequence. -/
inductive GetItem
  | ok (e : GEvent)
  | err (msg : String)
deriving DecidableEq

/-- Outcome of running the getter body: a finite item sequence, or a panic
carrying the items yielded before it. -/
inductive GetterOutcome
  | items (l : List GetItem)
  | panicked (yielded : List GetItem)
deriving DecidableEq

/-- `read_n` (get.rs 101–105): `read_exact` for `size` bytes with the result
`unwrap`ped. A stream that ends before `size` bytes makes `read_exact` return
`Err(UnexpectedEof)`, so the `unwrap` panics: that case is `none`. `avail` is
the number of bytes the peer delivers before ending the stream. -/
def readN (avail size : Nat) : Option Nat :=
  if size ≤ avail then some size else none

/-- Embeds the body of `run` (get.rs 107–235) after handshake and request are
sent. `resp` is the response record read from the stream (`none` models a
clean close before any record) and `avail` the number of payload bytes the
peer delivers afterwards; `decodeOk` is whether the spawned bao decode task
succeeds. `Connected` is yielded before the response is read; in the `Found`
branch `Requested` is yielded before the size guard; `read_n` demands exactly
`encodedSize size` bytes and panics when fewer arrive; then `Receiving` is
yielded, the decode task is awaited (`t.await??`), and `Done` closes the
sequence. -/
def getterRun (resp : Option GetRes) (avail : Nat) (decodeOk : Bool) :
    GetterOutcome :=
  match resp with
  | none => .items [.ok .connected, .err "provider disconnected"]
  | some .notFound => .items [.ok .connected, .err "data not found"]
  | some (.found size _outboard) =>
    if size > MAX_DATA_SIZE then
      .items [.ok .connected, .ok (.requested size), .err "size too large"]
    else
      match readN avail (encodedSize size) with
      | none => .panicked [.ok .connected, .ok (.requested size)]
      | some _ =>
        if decodeOk then
          .items [.ok .connected, .ok (.requested size), .ok .receiving,
            .ok (.done size)]
        else
          .items [.ok .connected, .ok (.requested size), .ok .receiving,
            .err "decode failed"]

/-! ## Collection builder (`create_collection`, provider.rs 489–564) -/

/-- A `DataSource` (provider.rs): `File path` carries no explicit name,
`NamedFile { path, name }` an explicit one (possibly empty). -/
structure DataSource where
  path : String
  name : Option String

/-- `path.file_name().and_then(|s| s.to_str()).unwrap_or_default()` for the
separator-free and `a/b`-shaped paths used here: the text after the last `/`
(the empty string after a trailing `/`). -/
def basename (p : String) : String :=
  String.mk (p.data.foldl (fun acc c => if c = Char.ofNat 47 then [] else acc ++ [c]) [])

/-- `compute_outboard` (provider.rs 460–487): open the file, hash it in one
pass and collect the outboard. Over an immutable `fs` the
file-changed-during-encoding check (`len == len2`) cannot fire. -/
def computeOutboard (m : BaoModel) (content : List Nat) : Hash × List Nat :=
  (m.hashFn content, m.outboardBytes content)

/-- The per-source loop of `create_collection` (provider.rs 498–535): for each
source in input order, compute hash and outboard, decode `size` from the first
8 outboard bytes (`u64::from_le_bytes(outboard[..8])`), insert the blob
descriptor, accumulate `total_blobs_size`, and push a manifest entry whose
name is the explicit name when given and the path's basename otherwise. -/
def collectSources (m : BaoModel) (fs : String → List Nat) (db : Db) :
    List DataSource → Db × List Blob × Nat
  | [] => (db, [], 0)
  | s :: rest =>
    let content := fs s.path
    let hash := (computeOutboard m content).1
    let outboard := (computeOutboard m content).2
    let size := leDecode (outboard.take 8)
    let db' := dbInsert db hash (.blob outboard s.path size)
    let name := s.name.getD (basename s.path)
    let r := collectSources m fs db' rest
    (r.1, ⟨name, hash⟩ :: r.2.1, size + r.2.2)

/-- `create_collection` (provider.rs 489–564): build the blob entries, wrap
them in the manifest named `"collection"`, serialize it (`postcard::to_slice`,
modelled by `serializeC` since `blobs.rs` is not in the source tree), compute
its outboard and root hash (`bao::encode::outboard`), and insert the
collection entry. The source returns the database and the root hash; the
built manifest is returned here as well so the claims can speak about it. -/
def createCollection (m : BaoModel) (serializeC : Collection → List Nat)
    (fs : String → List Nat) (sources : List DataSource) :
    Db × Collection × Hash :=
  let r := collectSources m fs [] sources
  let c : Collection := ⟨"collection", r.2.1, r.2.2⟩
  let data := serializeC c
  let outboard := m.outboardBytes data
  let hash := m.hashFn data
  (dbInsert r.1 hash (.collection outboard data), c, hash)

/-! ## Bit strings (groundwork for the URL-safe base encoding of tickets) -/

/-- Value of a bit string, most significant bit first. -/
def bitsToNat : List Bool → Nat
  | [] => 0
  | b :: rest => b.toNat * 2 ^ rest.length + bitsToNat rest

/-- The `n` low bits of `v`, most significant first. -/
def natBits : Nat → Nat → List Bool
  | 0, _ => []
  | n + 1, v => v.testBit n :: natBits n v

theorem natBits_length (n v : Nat) : (natBits n v).length = n := by
  induction n generalizing v with
  | zero => rfl
  | succ n ih => simp [natBits, ih]

theorem bitsToNat_lt (l : List Bool) : bitsToNat l < 2 ^ l.length := by
  induction l with
  | nil => simp [bitsToNat]
  | cons b rest ih =>
    rw [bitsToNat, List.length_cons, pow_succ]
    cases b <;> simp only [Bool.toNat_true, Bool.toNat_false, one_mul, zero_mul] <;> omega

theorem bitsToNat_natBits (n v : Nat) : bitsToNat (natBits n v) = v % 2 ^ n := by
  induction n generalizing v with
  | zero => simp [natBits, bitsToNat, Nat.mod_one]
  | succ n ih =>
    rw [natBits, bitsToNat, natBits_length, ih, Nat.mod_pow_succ,
      Nat.testBit_to_div_mod]
    have key : ∀ t, t < 2 → (decide (t = 1)).toNat = t := by decide
    rw [key _ (Nat.mod_lt _ (by norm_num))]
    ring

theorem natBits_add_mul_pow (n m v : Nat) :
    natBits n (m * 2 ^ n + v) = natBits n v := by
  induction n generalizing m with
  | zero => rfl
  | succ n ih =>
    rw [natBits, natBits]
    have hdiv : (m * 2 ^ (n + 1) + v) / 2 ^ n = 2 * m + v / 2 ^ n := by
      have hx : m * 2 ^ (n + 1) + v = 2 ^ n * (2 * m) + v := by ring
      rw [hx, Nat.mul_add_div (pow_pos (by norm_num) n)]
    have hbit : (m * 2 ^ (n + 1) + v).testBit n = v.testBit n := by
      rw [Nat.testBit_to_div_mod, Nat.testBit_to_div_mod, hdiv]
      have : (2 * m + v / 2 ^ n) % 2 = v / 2 ^ n % 2 := by omega
      rw [this]
    have htail : natBits n (m * 2 ^ (n + 1) + v) = natBits n v := by
      have hx : m * 2 ^ (n + 1) + v = (2 * m) * 2 ^ n + v := by ring
      rw [hx, ih]
    rw [hbit, htail]

theorem natBits_bitsToNat (l : List Bool) :
    natBits l.length (bitsToNat l) = l := by
  induction l with
  | nil => rfl
  | cons b rest ih =>
    have hlt := bitsToNat_lt rest
    have hpos : 0 < 2 ^ rest.length := pow_pos (by norm_num) _
    rw [List.length_cons, natBits, bitsToNat]
    have hdiv : (b.toNat * 2 ^ rest.length + bitsToNat rest) / 2 ^ rest.length
        = b.toNat := by
      have hx : b.toNat * 2 ^ rest.length + bitsToNat rest
          = 2 ^ rest.length * b.toNat + bitsToNat rest := by ring
      rw [hx, Nat.mul_add_div hpos, Nat.div_eq_of_lt hlt, Nat.add_zero]
    have hbit : (b.toNat * 2 ^ rest.length + bitsToNat rest).testBit rest.length
        = b := by
      rw [Nat.testBit_to_div_mod, hdiv]
      cases b <;> rfl
    have htail : natBits rest.length (b.toNat * 2 ^ rest.length + bitsToNat rest)
        = rest := by
      calc natBits rest.length (b.toNat * 2 ^ rest.length + bitsToNat rest)
          = natBits rest.length (bitsToNat rest) := natBits_add_mul_pow _ _ _
        _ = rest := ih
    rw [hbit, htail]

/-- Split a bit string into 6-bit groups, zero-padding the last group on the
right, each group as its numeric value (base64 bit order). -/
def toSextets : List Bool → List Nat
  | [] => []
  | [b1] => [bitsToNat [b1, false, false, false, false, false]]
  | [b1, b2] => [bitsToNat [b1, b2, false, false, false, false]]
  | [b1, b2, b3] => [bitsToNat [b1, b2, b3, false, false, false]]
  | [b1, b2, b3, b4] => [bitsToNat [b1, b2, b3, b4, false, false]]
  | [b1, b2, b3, b4, b5] => [bitsToNat [b1, b2, b3, b4, b5, false]]
  | b1 :: b2 :: b3 :: b4 :: b5 :: b6 :: rest =>
    bitsToNat [b1, b2, b3, b4, b5, b6] :: toSextets rest

theorem toSextets_lt (l : List Bool) : ∀ x ∈ toSextets l, x < 64 := by
  induction l using toSextets.induct <;> intro x hx <;>
    simp only [toSextets, List.mem_cons, List.mem_singleton,
      List.not_mem_nil] at hx
  case case2 b1 =>
    rcases hx with rfl | h
    · exact bitsToNat_lt [b1, false, false, false, false, false]
    · exact h.elim
  case case3 b1 b2 =>
    rcases hx with rfl | h
    · exact bitsToNat_lt [b1, b2, false, false, false, false]
    · exact h.elim
  case case4 b1 b2 b3 =>
    rcases hx with rfl | h
    · exact bitsToNat_lt [b1, b2, b3, false, false, false]
    · exact h.elim
  case case5 b1 b2 b3 b4 =>
    rcases hx with rfl | h
    · exact bitsToNat_lt [b1, b2, b3, b4, false, false]
    · exact h.elim
  case case6 b1 b2 b3 b4 b5 =>
    rcases hx with rfl | h
    · exact bitsToNat_lt [b1, b2, b3, b4, b5, false]
    · exact h.elim
  case case7 b1 b2 b3 b4 b5 b6 rest ih =>
    rcases hx with rfl | hx
    · exact bitsToNat_lt [b1, b2, b3, b4, b5, b6]
    · exact ih x hx

theorem toSextets_bits (l : List Bool) :
    (toSextets l).flatMap (natBits 6) =
      l ++ List.replicate ((6 - l.length % 6) % 6) false := by
  induction l using toSextets.induct
  case case1 => rfl
  case case2 b1 =>
    have h6 : natBits 6 (bitsToNat [b1, false, false, false, false, false])
        = [b1, false, false, false, false, false] :=
      natBits_bitsToNat [b1, false, false, false, false, false]
    show natBits 6 (bitsToNat [b1, false, false, false, false, false]) ++ [] = _
    rw [h6]
    rfl
  case case3 b1 b2 =>
    have h6 : natBits 6 (bitsToNat [b1, b2, false, false, false, false])
        = [b1, b2, false, false, false, false] :=
      natBits_bitsToNat [b1, b2, false, false, false, false]
    show natBits 6 (bitsToNat [b1, b2, false, false, false, false]) ++ [] = _
    rw [h6]
    rfl
  case case4 b1 b2 b3 =>
    have h6 : natBits 6 (bitsToNat [b1, b2, b3, false, false, false])
        = [b1, b2, b3, false, false, false] :=
      natBits_bitsToNat [b1, b2, b3, false, false, false]
    show natBits 6 (bitsToNat [b1, b2, b3, false, false, false]) ++ [] = _
    rw [h6]
    rfl
  case case5 b1 b2 b3 b4 =>
    have h6 : natBits 6 (bitsToNat [b1, b2, b3, b4, false, false])
        = [b1, b2, b3, b4, false, false] :=
      natBits_bitsToNat [b1, b2, b3, b4, false, false]
    show natBits 6 (bitsToNat [b1, b2, b3, b4, false, false]) ++ [] = _
    rw [h6]
    rfl
  case case6 b1 b2 b3 b4 b5 =>
    have h6 : natBits 6 (bitsToNat [b1, b2, b3, b4, b5, false])
        = [b1, b2, b3, b4, b5, false] :=
      natBits_bitsToNat [b1, b2, b3, b4, b5, false]
    show natBits 6 (bitsToNat [b1, b2, b3, b4, b5, false]) ++ [] = _
    rw [h6]
    rfl
  case case7 b1 b2 b3 b4 b5 b6 rest ih =>
    have h6 : natBits 6 (bitsToNat [b1, b2, b3, b4, b5, b6])
        = [b1, b2, b3, b4, b5, b6] :=
      natBits_bitsToNat [b1, b2, b3, b4, b5, b6]
    show natBits 6 (bitsToNat [b1, b2, b3, b4, b5, b6]) ++
      (toSextets rest).flatMap (natBits 6) = _
    rw [h6, ih]
    have hmod : (b1 :: b2 :: b3 :: b4 :: b5 :: b6 :: rest).length % 6
        = rest.length % 6 := by
      simp only [List.length_cons]
      omega
    rw [hmod]
    simp only [List.cons_append, List.nil_append, List.append_assoc]

/-- Bytes to bits, 8 bits per byte, most significant first. -/
def bytesToBits (bs : List Nat) : List Bool := bs.flatMap (natBits 8)

/-- Regroup bits into bytes, dropping up to seven trailing bits. -/
def fromBits : List Bool → List Nat
  | [] => []
  | [_] => []
  | [_, _] => []
  | [_, _, _] => []
  | [_, _, _, _] => []
  | [_, _, _, _, _] => []
  | [_, _, _, _, _, _] => []
  | [_, _, _, _, _, _, _] => []
  | b1 :: b2 :: b3 :: b4 :: b5 :: b6 :: b7 :: b8 :: rest =>
    bitsToNat [b1, b2, b3, b4, b5, b6, b7, b8] :: fromBits rest

theorem fromBits_short (l : List Bool) (h : l.length < 8) : fromBits l = [] := by
  rcases l with _ | ⟨b1, _ | ⟨b2, _ | ⟨b3, _ | ⟨b4, _ | ⟨b5, _ | ⟨b6, _ | ⟨b7, _ | ⟨b8, t⟩⟩⟩⟩⟩⟩⟩⟩ <;>
    first
      | rfl
      | (exfalso; simp only [List.length_cons] at h; omega)

theorem fromBits_bytesToBits (bs : List Nat) (hb : ∀ b ∈ bs, b < 256)
    (tail : List Bool) (ht : tail.length < 8) :
    fromBits (bytesToBits bs ++ tail) = bs := by
  induction bs with
  | nil => exact fromBits_short tail ht
  | cons b rest ih =>
    have hsplit : natBits 8 b = [b.testBit 7, b.testBit 6, b.testBit 5, b.testBit 4,
        b.testBit 3, b.testBit 2, b.testBit 1, b.testBit 0] := rfl
    have hval : bitsToNat (natBits 8 b) = b := by
      rw [bitsToNat_natBits]
      exact Nat.mod_eq_of_lt (hb b (List.mem_cons_self b rest))
    show fromBits ((b :: rest).flatMap (natBits 8) ++ tail) = b :: rest
    rw [List.flatMap_cons, hsplit]
    show bitsToNat [b.testBit 7, b.testBit 6, b.testBit 5, b.testBit 4,
        b.testBit 3, b.testBit 2, b.testBit 1, b.testBit 0] ::
      fromBits (rest.flatMap (natBits 8) ++ tail) = b :: rest
    rw [← hsplit, hval]
    exact congrArg (b :: ·) (ih (fun x hx => hb x (List.mem_cons_of_mem b hx)))

/-! ## URL-safe base encoding (util.rs is not in the source tree) -/

/-- The URL-safe base64 alphabet: `A–Z`, `a–z`, `0–9`, `-`, `_`. -/
def sextetChar (n : Nat) : Char :=
  if n < 26 then Char.ofNat (65 + n)
  else if n < 52 then Char.ofNat (97 + (n - 26))
  else if n < 62 then Char.ofNat (48 + (n - 52))
  else if n = 62 then Char.ofNat 45
  else Char.ofNat 95

/-- Inverse alphabet lookup; `none` on any character outside the alphabet. -/
def charSextet (c : Char) : Option Nat :=
  let v := c.toNat
  if 65 ≤ v ∧ v ≤ 90 then some (v - 65)
  else if 97 ≤ v ∧ v ≤ 122 then some (26 + (v - 97))
  else if 48 ≤ v ∧ v ≤ 57 then some (52 + (v - 48))
  else if v = 45 then some 62
  else if v = 95 then some 63
  else none

theorem charSextet_sextetChar : ∀ n, n < 64 → charSextet (sextetChar n) = some n := by
  decide

/-- Modelled from the spec: `util::encode` — the URL-safe base encoding of a
byte string (no padding characters). -/
def b64Encode (bs : List Nat) : String :=
  String.mk ((toSextets (bytesToBits bs)).map sextetChar)

/-- Modelled from the spec: `util::decode` — reject any character outside the
URL-safe alphabet, then regroup the sextet bits into bytes, dropping the at
most five trailing pad bits. -/
def b64Decode (s : String) : Option (List Nat) := do
  let sx ← s.data.mapM charSextet
  pure (fromBits (sx.flatMap (natBits 6)))

theorem mapM_charSextet_map (l : List Nat) (h : ∀ x ∈ l, x < 64) :
    (l.map sextetChar).mapM charSextet = some l := by
  induction l with
  | nil => rfl
  | cons a rest ih =>
    rw [List.map_cons, List.mapM_cons,
      charSextet_sextetChar a (h a (List.mem_cons_self a rest)),
      ih (fun x hx => h x (List.mem_cons_of_mem a hx))]
    rfl

theorem mapM_charSextet_none (l : List Char) (h : ∃ c ∈ l, charSextet c = none) :
    l.mapM charSextet = none := by
  induction l with
  | nil => simp at h
  | cons a rest ih =>
    rw [List.mapM_cons]
    rcases h with ⟨c, hc, hnone⟩
    rcases List.mem_cons.mp hc with rfl | hmem
    · rw [hnone]; rfl
    · cases ha : charSextet a
      · rfl
      · rw [ih ⟨c, hmem, hnone⟩]; rfl

theorem b64_roundtrip (bs : List Nat) (h : ∀ b ∈ bs, b < 256) :
    b64Decode (b64Encode bs) = some bs := by
  have hdata : (String.mk ((toSextets (bytesToBits bs)).map sextetChar)).data
      = (toSextets (bytesToBits bs)).map sextetChar := rfl
  rw [b64Encode, b64Decode, hdata,
    mapM_charSextet_map _ (toSextets_lt (bytesToBits bs))]
  show some (fromBits ((toSextets (bytesToBits bs)).flatMap (natBits 6))) = some bs
  rw [toSextets_bits]
  have hpadlen : ((6 - (bytesToBits bs).length % 6) % 6) < 8 :=
    Nat.lt_of_lt_of_le (Nat.mod_lt _ (by norm_num)) (by norm_num)
  rw [fromBits_bytesToBits bs h _ (by rw [List.length_replicate]; exact hpadlen)]

/-! ## The ticket codec (provider.rs 586–619) -/

/-- A fixed-width byte vector: the `Hash` (32-byte BLAKE3 digest, util.rs),
the `PeerId` (32-byte public signing key, tls.rs) and the `AuthToken`
(32 random bytes, protocol.rs) are all modelled this way; those files are not
in the source tree, the widths follow the spec (§3). -/
abbrev ByteVec (n : Nat) := { l : List Nat // l.length = n ∧ ∀ b ∈ l, b < 256 }

/-- A port number (`u16`). -/
abbrev TPort := { p : Nat // p < 65536 }

/-- A `SocketAddr`: a V4 or V6 address with a port. -/
inductive TicketAddr
  | v4 (octets : ByteVec 4) (port : TPort)
  | v6 (octets : ByteVec 16) (port : TPort)
deriving DecidableEq

/-- `Ticket` (provider.rs 590–600): everything needed to get a hash. -/
structure Ticket where
  hash : ByteVec 32
  peer : ByteVec 32
  addr : TicketAddr
  token : ByteVec 32
deriving DecidableEq

/-- Modelled from the spec: the canonical (postcard-style) record encoding of
a `SocketAddr` — a variant tag, the address octets, the port in two
little-endian bytes. -/
def addrBytes : TicketAddr → List Nat
  | .v4 o p => 0 :: (o.1 ++ leBytes 2 p.1)
  | .v6 o p => 1 :: (o.1 ++ leBytes 2 p.1)

/-- Modelled from the spec: `postcard::to_stdvec` over the `Ticket` record —
the fixed-width fields as raw bytes, the address self-delimiting in between. -/
def serializeTicket (t : Ticket) : List Nat :=
  t.hash.1 ++ (t.peer.1 ++ (addrBytes t.addr ++ t.token.1))

/-- Read `n` bytes off the front of a byte list, validating width and range. -/
def readBytes (n : Nat) (l : List Nat) : Option (ByteVec n × List Nat) :=
  if h : (l.take n).length = n ∧ ∀ b ∈ l.take n, b < 256 then
    some (⟨l.take n, h⟩, l.drop n)
  else none

/-- Read a two-byte little-endian port. -/
def readPort : List Nat → Option (TPort × List Nat)
  | b0 :: b1 :: rest =>
    if h : b0 + 256 * b1 < 65536 then some (⟨b0 + 256 * b1, h⟩, rest) else none
  | _ => none

/-- Read a tagged `SocketAddr`. -/
def readAddr : List Nat → Option (TicketAddr × List Nat)
  | 0 :: rest => do
    let (o, rest) ← readBytes 4 rest
    let (p, rest) ← readPort rest
    pure (.v4 o p, rest)
  | 1 :: rest => do
    let (o, rest) ← readBytes 16 rest
    let (p, rest) ← readPort rest
    pure (.v6 o p, rest)
  | _ => none

/-- Modelled from the spec: `postcard::from_bytes` for the `Ticket` record
(trailing bytes are discarded, as postcard's `from_bytes` does). -/
def deserializeTicket (l : List Nat) : Option Ticket := do
  let (h, rest) ← readBytes 32 l
  let (peer, rest) ← readBytes 32 rest
  let (addr, rest) ← readAddr rest
  let (token, _rest) ← readBytes 32 rest
  pure ⟨h, peer, addr, token⟩

/-- `impl Display for Ticket` (provider.rs 603–608): canonical-encode, then
base-encode. -/
def ticketEncode (t : Ticket) : String := b64Encode (serializeTicket t)

/-- `impl FromStr for Ticket` (provider.rs 611–619): base-decode, then
canonical-decode; every failure is a ticket error (`none`). -/
def ticketDecode (s : String) : Option Ticket := do
  let bytes ← b64Decode s
  deserializeTicket bytes

theorem readBytes_append (n : Nat) (v : ByteVec n) (rest : List Nat) :
    readBytes n (v.1 ++ rest) = some (v, rest) := by
  obtain ⟨l, hlen, hlt⟩ := v
  have ht : (l ++ rest).take n = l := by rw [← hlen]; exact List.take_left l rest
  have hd : (l ++ rest).drop n = rest := by rw [← hlen]; exact List.drop_left l rest
  rw [readBytes]
  rw [dif_pos (by rw [ht]; exact ⟨hlen, hlt⟩)]
  simp only [ht, hd]

theorem readPort_append (p : TPort) (rest : List Nat) :
    readPort (leBytes 2 p.1 ++ rest) = some (p, rest) := by
  obtain ⟨v, hv⟩ := p
  have hval : v % 256 + 256 * (v / 256 % 256) = v := by
    have h2 : leDecode (leBytes 2 v) = v := leDecode_leBytes_of_lt (by norm_num; omega)
    simpa [leBytes, leDecode] using h2
  show readPort (v % 256 :: v / 256 % 256 :: rest) = some (⟨v, hv⟩, rest)
  rw [readPort, dif_pos (by omega)]
  exact congrArg some (congrArg (·, rest) (Subtype.ext hval))

theorem readAddr_append (a : TicketAddr) (rest : List Nat) :
    readAddr (addrBytes a ++ rest) = some (a, rest) := by
  cases a with
  | v4 o p =>
    have e : addrBytes (.v4 o p) ++ rest = 0 :: (o.1 ++ (leBytes 2 p.1 ++ rest)) := by
      rw [addrBytes, List.cons_append, List.append_assoc]
    rw [e]
    show (readBytes 4 (o.1 ++ (leBytes 2 p.1 ++ rest))) >>= _ = _
    rw [readBytes_append]
    show (readPort (leBytes 2 p.1 ++ rest)) >>= _ = _
    rw [readPort_append]
    rfl
  | v6 o p =>
    have e : addrBytes (.v6 o p) ++ rest = 1 :: (o.1 ++ (leBytes 2 p.1 ++ rest)) := by
      rw [addrBytes, List.cons_append, List.append_assoc]
    rw [e]
    show (readBytes 16 (o.1 ++ (leBytes 2 p.1 ++ rest))) >>= _ = _
    rw [readBytes_append]
    show (readPort (leBytes 2 p.1 ++ rest)) >>= _ = _
    rw [readPort_append]
    rfl

theorem readBytes_exact (n : Nat) (v : ByteVec n) :
    readBytes n v.1 = some (v, []) := by
  have h := readBytes_append n v []
  rwa [List.append_nil] at h

theorem deserializeTicket_serializeTicket (t : Ticket) :
    deserializeTicket (serializeTicket t) = some t := by
  obtain ⟨h, peer, addr, token⟩ := t
  show (readBytes 32 (h.1 ++ (peer.1 ++ (addrBytes addr ++ token.1)))) >>= _ = _
  rw [readBytes_append]
  show (readBytes 32 (peer.1 ++ (addrBytes addr ++ token.1))) >>= _ = _
  rw [readBytes_append]
  show (readAddr (addrBytes addr ++ token.1)) >>= _ = _
  rw [readAddr_append]
  show (readBytes 32 token.1) >>= _ = _
  rw [readBytes_exact]
  rfl

theorem leBytes_lt (k n : Nat) : ∀ b ∈ leBytes k n, b < 256 := by
  induction k generalizing n with
  | zero => intro b hb; simp [leBytes] at hb
  | succ k ih =>
    intro b hb
    rw [leBytes] at hb
    rcases List.mem_cons.mp hb with rfl | hb
    · exact Nat.mod_lt _ (by norm_num)
    · exact ih _ b hb

theorem serializeTicket_bytes_lt (t : Ticket) : ∀ b ∈ serializeTicket t, b < 256 := by
  obtain ⟨⟨h, hh⟩, ⟨peer, hp⟩, addr, ⟨token, htok⟩⟩ := t
  intro b hb
  simp only [serializeTicket, List.mem_append] at hb
  rcases hb with hb | hb | hb | hb
  · exact hh.2 b hb
  · exact hp.2 b hb
  · cases addr with
    | v4 o p =>
      rcases List.mem_cons.mp hb with rfl | hb
      · norm_num
      · rcases List.mem_append.mp hb with hb | hb
        · exact o.2.2 b hb
        · exact leBytes_lt 2 p.1 b hb
    | v6 o p =>
      rcases List.mem_cons.mp hb with rfl | hb
      · norm_num
      · rcases List.mem_append.mp hb with hb | hb
        · exact o.2.2 b hb
        · exact leBytes_lt 2 p.1 b hb
  · exact htok.2 b hb

theorem ticket_roundtrip (t : Ticket) : ticketDecode (ticketEncode t) = some t := by
  rw [ticketEncode, ticketDecode, b64_roundtrip _ (serializeTicket_bytes_lt t)]
  show deserializeTicket (serializeTicket t) = some t
  exact deserializeTicket_serializeTicket t

/-! ## Truncated ticket payloads fail to decode -/

theorem take_append_ge {α : Type} (l r : List α) (k : Nat) (h : l.length ≤ k) :
    (l ++ r).take k = l ++ r.take (k - l.length) := by
  rw [List.take_append_eq_append_take, List.take_of_length_le h]

theorem readBytes_short (n : Nat) (l : List Nat) (h : l.length < n) :
    readBytes n l = none := by
  have hneg : ¬ ((l.take n).length = n ∧ ∀ b ∈ l.take n, b < 256) := by
    intro hc
    have h1 := hc.1
    rw [List.length_take] at h1
    omega
  rw [readBytes, dif_neg hneg]

theorem readPort_short (l : List Nat) (h : l.length < 2) : readPort l = none := by
  rcases l with _ | ⟨b0, _ | ⟨b1, rest⟩⟩
  · rfl
  · rfl
  · simp only [List.length_cons] at h
    omega

/-- Truncation at the byte level: every strict prefix of a serialized ticket
fails to deserialize (some fixed-width read runs out of bytes). -/
theorem deserializeTicket_take_none (t : Ticket) (k : Nat)
    (hk : k < (serializeTicket t).length) :
    deserializeTicket ((serializeTicket t).take k) = none := by
  obtain ⟨hsh, peer, addr, token⟩ := t
  have hh := hsh.2.1
  have hp := peer.2.1
  have ht := token.2.1
  have hser : serializeTicket ⟨hsh, peer, addr, token⟩
      = hsh.1 ++ (peer.1 ++ (addrBytes addr ++ token.1)) := rfl
  rw [hser] at hk ⊢
  have hlen : (hsh.1 ++ (peer.1 ++ (addrBytes addr ++ token.1))).length
      = 32 + (32 + ((addrBytes addr).length + 32)) := by
    simp [List.length_append, hh, hp, ht]
  by_cases hk1 : k < 32
  · have hshort : ((hsh.1 ++ (peer.1 ++ (addrBytes addr ++ token.1))).take k).length
        < 32 := by
      rw [List.length_take]
      omega
    show (readBytes 32 ((hsh.1 ++ (peer.1 ++ (addrBytes addr ++ token.1))).take k))
      >>= _ = none
    rw [readBytes_short _ _ hshort]
    rfl
  · have e1 : (hsh.1 ++ (peer.1 ++ (addrBytes addr ++ token.1))).take k
        = hsh.1 ++ (peer.1 ++ (addrBytes addr ++ token.1)).take (k - 32) := by
      have e := take_append_ge hsh.1 (peer.1 ++ (addrBytes addr ++ token.1)) k
        (by rw [hh]; omega)
      rwa [hh] at e
    rw [e1]
    show (readBytes 32 (hsh.1 ++ (peer.1 ++ (addrBytes addr ++ token.1)).take (k - 32)))
      >>= _ = none
    rw [readBytes_append]
    show (readBytes 32 ((peer.1 ++ (addrBytes addr ++ token.1)).take (k - 32)))
      >>= _ = none
    by_cases hk2 : k - 32 < 32
    · have hshort : (((peer.1 ++ (addrBytes addr ++ token.1)).take (k - 32))).length
          < 32 := by
        rw [List.length_take]
        omega
      rw [readBytes_short _ _ hshort]
      rfl
    · have e2 : (peer.1 ++ (addrBytes addr ++ token.1)).take (k - 32)
          = peer.1 ++ (addrBytes addr ++ token.1).take (k - 64) := by
        have e := take_append_ge peer.1 (addrBytes addr ++ token.1) (k - 32)
          (by rw [hp]; omega)
        rw [hp] at e
        have harith : k - 32 - 32 = k - 64 := by omega
        rwa [harith] at e
      rw [e2]
      show (readBytes 32 (peer.1 ++ (addrBytes addr ++ token.1).take (k - 64)))
        >>= _ = none
      rw [readBytes_append]
      show (readAddr ((addrBytes addr ++ token.1).take (k - 64))) >>= _ = none
      cases addr with
      | v4 o p =>
        have ho := o.2.1
        have hA : (addrBytes (TicketAddr.v4 o p)).length = 7 := by
          simp [addrBytes, List.length_append, ho, leBytes_length]
        have hj : k - 64 < 39 := by omega
        have edecomp : addrBytes (TicketAddr.v4 o p) ++ token.1
            = 0 :: (o.1 ++ (leBytes 2 p.1 ++ token.1)) := by
          rw [addrBytes, List.cons_append, List.append_assoc]
        rw [edecomp]
        by_cases hz : k - 64 = 0
        · rw [hz]
          rfl
        · have e3 : (0 :: (o.1 ++ (leBytes 2 p.1 ++ token.1))).take (k - 64)
              = 0 :: (o.1 ++ (leBytes 2 p.1 ++ token.1)).take (k - 65) := by
            have hsucc : k - 64 = (k - 65) + 1 := by omega
            rw [hsucc, List.take_succ_cons]
          rw [e3]
          show ((readBytes 4 ((o.1 ++ (leBytes 2 p.1 ++ token.1)).take (k - 65)))
            >>= _) >>= _ = none
          by_cases h4 : k - 65 < 4
          · have hshort : (((o.1 ++ (leBytes 2 p.1 ++ token.1)).take (k - 65))).length
                < 4 := by
              rw [List.length_take]
              omega
            rw [readBytes_short _ _ hshort]
            rfl
          · have e4 : (o.1 ++ (leBytes 2 p.1 ++ token.1)).take (k - 65)
                = o.1 ++ (leBytes 2 p.1 ++ token.1).take (k - 69) := by
              have e := take_append_ge o.1 (leBytes 2 p.1 ++ token.1) (k - 65)
                (by rw [ho]; omega)
              rw [ho] at e
              have harith : k - 65 - 4 = k - 69 := by omega
              rwa [harith] at e
            rw [e4]
            show ((readBytes 4 (o.1 ++ (leBytes 2 p.1 ++ token.1).take (k - 69)))
              >>= _) >>= _ = none
            rw [readBytes_append]
            show ((readPort ((leBytes 2 p.1 ++ token.1).take (k - 69))) >>= _) >>= _
              = none
            by_cases h2 : k - 69 < 2
            · have hshort : (((leBytes 2 p.1 ++ token.1).take (k - 69))).length < 2 := by
                rw [List.length_take]
                omega
              rw [readPort_short _ hshort]
              rfl
            · have e5 : (leBytes 2 p.1 ++ token.1).take (k - 69)
                  = leBytes 2 p.1 ++ token.1.take (k - 71) := by
                have e := take_append_ge (leBytes 2 p.1) token.1 (k - 69)
                  (by rw [leBytes_length]; omega)
                rw [leBytes_length] at e
                have harith : k - 69 - 2 = k - 71 := by omega
                rwa [harith] at e
              rw [e5]
              show ((readPort (leBytes 2 p.1 ++ token.1.take (k - 71))) >>= _) >>= _
                = none
              rw [readPort_append]
              show (readBytes 32 (token.1.take (k - 71))) >>= _ = none
              have hshort : ((token.1.take (k - 71))).length < 32 := by
                rw [List.length_take]
                omega
              rw [readBytes_short _ _ hshort]
              rfl
      | v6 o p =>
        have ho := o.2.1
        have hA : (addrBytes (TicketAddr.v6 o p)).length = 19 := by
          simp [addrBytes, List.length_append, ho, leBytes_length]
        have hj : k - 64 < 51 := by omega
        have edecomp : addrBytes (TicketAddr.v6 o p) ++ token.1
            = 1 :: (o.1 ++ (leBytes 2 p.1 ++ token.1)) := by
          rw [addrBytes, List.cons_append, List.append_assoc]
        rw [edecomp]
        by_cases hz : k - 64 = 0
        · rw [hz]
          rfl
        · have e3 : (1 :: (o.1 ++ (leBytes 2 p.1 ++ token.1))).take (k - 64)
              = 1 :: (o.1 ++ (leBytes 2 p.1 ++ token.1)).take (k - 65) := by
            have hsucc : k - 64 = (k - 65) + 1 := by omega
            rw [hsucc, List.take_succ_cons]
          rw [e3]
          show ((readBytes 16 ((o.1 ++ (leBytes 2 p.1 ++ token.1)).take (k - 65)))
            >>= _) >>= _ = none
          by_cases h16 : k - 65 < 16
          · have hshort : (((o.1 ++ (leBytes 2 p.1 ++ token.1)).take (k - 65))).length
                < 16 := by
              rw [List.length_take]
              omega
            rw [readBytes_short _ _ hshort]
            rfl
          · have e4 : (o.1 ++ (leBytes 2 p.1 ++ token.1)).take (k - 65)
                = o.1 ++ (leBytes 2 p.1 ++ token.1).take (k - 81) := by
              have e := take_append_ge o.1 (leBytes 2 p.1 ++ token.1) (k - 65)
                (by rw [ho]; omega)
              rw [ho] at e
              have harith : k - 65 - 16 = k - 81 := by omega
              rwa [harith] at e
            rw [e4]
            show ((readBytes 16 (o.1 ++ (leBytes 2 p.1 ++ token.1).take (k - 81)))
              >>= _) >>= _ = none
            rw [readBytes_append]
            show ((readPort ((leBytes 2 p.1 ++ token.1).take (k - 81))) >>= _) >>= _
              = none
            by_cases h2 : k - 81 < 2
            · have hshort : (((leBytes 2 p.1 ++ token.1).take (k - 81))).length < 2 := by
                rw [List.length_take]
                omega
              rw [readPort_short _ hshort]
              rfl
            · have e5 : (leBytes 2 p.1 ++ token.1).take (k - 81)
                  = leBytes 2 p.1 ++ token.1.take (k - 83) := by
                have e := take_append_ge (leBytes 2 p.1) token.1 (k - 81)
                  (by rw [leBytes_length]; omega)
                rw [leBytes_length] at e
                have harith : k - 81 - 2 = k - 83 := by omega
                rwa [harith] at e
              rw [e5]
              show ((readPort (leBytes 2 p.1 ++ token.1.take (k - 83))) >>= _) >>= _
                = none
              rw [readPort_append]
              show (readBytes 32 (token.1.take (k - 83))) >>= _ = none
              have hshort : ((token.1.take (k - 83))).length < 32 := by
                rw [List.length_take]
                omega
              rw [readBytes_short _ _ hshort]
              rfl

theorem toSextets_length (l : List Bool) :
    (toSextets l).length = (l.length + 5) / 6 := by
  induction l using toSextets.induct
  case case1 => rfl
  case case2 b1 => simp [toSextets]
  case case3 b1 b2 => simp [toSextets]
  case case4 b1 b2 b3 => simp [toSextets]
  case case5 b1 b2 b3 b4 => simp [toSextets]
  case case6 b1 b2 b3 b4 b5 => simp [toSextets]
  case case7 b1 b2 b3 b4 b5 b6 rest ih =>
    show (bitsToNat [b1, b2, b3, b4, b5, b6] :: toSextets rest).length = _
    rw [List.length_cons, ih]
    simp only [List.length_cons]
    omega

theorem bytesToBits_length (bs : List Nat) :
    (bytesToBits bs).length = 8 * bs.length := by
  induction bs with
  | nil => rfl
  | cons b rest ih =>
    show (natBits 8 b ++ bytesToBits rest).length = _
    rw [List.length_append, natBits_length, ih, List.length_cons]
    omega

theorem flatMap_natBits6_take (cs : List Nat) (n : Nat) :
    (cs.take n).flatMap (natBits 6) = (cs.flatMap (natBits 6)).take (6 * n) := by
  induction cs generalizing n with
  | nil => simp
  | cons c rest ih =>
    cases n with
    | zero => simp
    | succ n =>
      rw [List.take_succ_cons, List.flatMap_cons, List.flatMap_cons, ih]
      have h6 : 6 * (n + 1) = (natBits 6 c).length + 6 * n := by
        rw [natBits_length]
        omega
      rw [h6, List.take_append]

theorem fromBits_bytesToBits_take (bs : List Nat) :
    (∀ b ∈ bs, b < 256) → ∀ m : Nat,
    fromBits ((bytesToBits bs).take m) = bs.take (m / 8) := by
  induction bs with
  | nil =>
    intro _ m
    simp [bytesToBits, fromBits]
  | cons b rest ih =>
    intro hb m
    have hsplit : natBits 8 b = [b.testBit 7, b.testBit 6, b.testBit 5, b.testBit 4,
        b.testBit 3, b.testBit 2, b.testBit 1, b.testBit 0] := rfl
    by_cases hm : m < 8
    · have hle : m ≤ (natBits 8 b).length := by rw [natBits_length]; omega
      have e : (bytesToBits (b :: rest)).take m = (natBits 8 b).take m := by
        show ((b :: rest).flatMap (natBits 8)).take m = _
        rw [List.flatMap_cons, List.take_append_of_le_length hle]
      rw [e]
      have hshort : ((natBits 8 b).take m).length < 8 := by
        rw [List.length_take, natBits_length]
        omega
      rw [fromBits_short _ hshort]
      have hdiv : m / 8 = 0 := by omega
      rw [hdiv]
      rfl
    · have e : (bytesToBits (b :: rest)).take m
          = natBits 8 b ++ (bytesToBits rest).take (m - 8) := by
        show ((b :: rest).flatMap (natBits 8)).take m = _
        rw [List.flatMap_cons]
        have e2 := take_append_ge (natBits 8 b) (rest.flatMap (natBits 8)) m
          (by rw [natBits_length]; omega)
        rw [natBits_length] at e2
        exact e2
      rw [e, hsplit]
      show bitsToNat [b.testBit 7, b.testBit 6, b.testBit 5, b.testBit 4,
          b.testBit 3, b.testBit 2, b.testBit 1, b.testBit 0] ::
        fromBits ((bytesToBits rest).take (m - 8)) = (b :: rest).take (m / 8)
      rw [← hsplit]
      have hval : bitsToNat (natBits 8 b) = b := by
        rw [bitsToNat_natBits]
        exact Nat.mod_eq_of_lt (hb b (List.mem_cons_self b rest))
      rw [hval, ih (fun x hx => hb x (List.mem_cons_of_mem b hx)) (m - 8)]
      have hdiv : m / 8 = (m - 8) / 8 + 1 := by omega
      rw [hdiv, List.take_succ_cons]

/-- Truncation at the string level: chopping any number of characters off the
end of an encoded ticket leaves a string that fails to decode — the remaining
characters decode to a strict byte prefix, which the record reader rejects. -/
theorem ticketDecode_take_none (t : Ticket) (n : Nat)
    (hn : n < (ticketEncode t).data.length) :
    ticketDecode (String.mk ((ticketEncode t).data.take n)) = none := by
  have hb := serializeTicket_bytes_lt t
  have hdata : (ticketEncode t).data
      = (toSextets (bytesToBits (serializeTicket t))).map sextetChar := rfl
  rw [hdata] at hn ⊢
  rw [← List.map_take]
  have hLn : n < (toSextets (bytesToBits (serializeTicket t))).length := by
    rw [List.length_map] at hn
    exact hn
  have h6n : 6 * n < 8 * (serializeTicket t).length := by
    have h1 := toSextets_length (bytesToBits (serializeTicket t))
    have h2 := bytesToBits_length (serializeTicket t)
    omega
  have hdec : b64Decode (String.mk
      (((toSextets (bytesToBits (serializeTicket t))).take n).map sextetChar))
      = some ((serializeTicket t).take (6 * n / 8)) := by
    show ((((toSextets (bytesToBits (serializeTicket t))).take n).map sextetChar).mapM
        charSextet >>= fun sx => pure (fromBits (sx.flatMap (natBits 6)))) = _
    rw [mapM_charSextet_map _
      (fun x hx => toSextets_lt _ x (List.take_subset _ _ hx))]
    show some (fromBits ((((toSextets (bytesToBits (serializeTicket t))).take n)).flatMap
      (natBits 6))) = _
    rw [flatMap_natBits6_take, toSextets_bits,
      List.take_append_of_le_length (by rw [bytesToBits_length]; omega),
      fromBits_bytesToBits_take _ hb (6 * n)]
  show (b64Decode (String.mk
      (((toSextets (bytesToBits (serializeTicket t))).take n).map sextetChar))
      >>= fun bytes => deserializeTicket bytes) = none
  rw [hdec]
  show deserializeTicket ((serializeTicket t).take (6 * n / 8)) = none
  exact deserializeTicket_take_none t (6 * n / 8) (by omega)

/-! ## Characterizing the provider's child loop -/

/-- A manifest entry whose hash is present in the database as a blob
descriptor (only those are served by `send_blob`). -/
def presentBlob (db : Db) (b : Blob) : Bool :=
  match dbLookup db b.hash with
  | some (.blob _ _ _) => true
  | _ => false

/-- Wire items of a run of children that are all served. -/
def foundItems (m : BaoModel) (fs : String → List Nat) (db : Db) (id : Nat)
    (bs : List Blob) : List WireItem :=
  bs.flatMap (fun b => (sendBlob m fs db b.hash id).1)

theorem foundItems_cons (m : BaoModel) (fs : String → List Nat) (db : Db)
    (id : Nat) (b : Blob) (l : List Blob) :
    foundItems m fs db id (b :: l)
      = (sendBlob m fs db b.hash id).1 ++ foundItems m fs db id l := by
  simp [foundItems]

theorem sendChildren_spec (m : BaoModel) (fs : String → List Nat) (db : Db)
    (id : Nat) (bs : List Blob) :
    sendChildren m fs db id bs =
      (foundItems m fs db id (bs.takeWhile (presentBlob db)) ++
        (if bs.dropWhile (presentBlob db) = [] then []
         else [.record ⟨id, .notFound⟩]),
       bs.all (presentBlob db)) := by
  induction bs with
  | nil => rfl
  | cons b rest ih =>
    rcases hdb : dbLookup db b.hash with _ | v
    · have hsend2 : (sendBlob m fs db b.hash id).2 = SentStatus.notFound := by
        rw [sendBlob, hdb]
      have hsend1 : (sendBlob m fs db b.hash id).1
          = [.record ⟨id, .notFound⟩] := by
        rw [sendBlob, hdb]
      have hp : presentBlob db b = false := by rw [presentBlob, hdb]
      simp only [sendChildren]
      rw [hsend2]
      simp [hp, hsend1, List.takeWhile_cons, List.dropWhile_cons, List.all_cons,
        foundItems]
    · cases v with
      | blob ob path size =>
        have hsend2 : (sendBlob m fs db b.hash id).2 = SentStatus.sent := by
          rw [sendBlob, hdb]
        have hp : presentBlob db b = true := by rw [presentBlob, hdb]
        simp only [sendChildren]
        rw [hsend2]
        simp [hp, List.takeWhile_cons, List.dropWhile_cons, List.all_cons,
          foundItems_cons, ih, List.append_assoc]
      | collection ob data =>
        have hsend2 : (sendBlob m fs db b.hash id).2 = SentStatus.notFound := by
          rw [sendBlob, hdb]
        have hsend1 : (sendBlob m fs db b.hash id).1
            = [.record ⟨id, .notFound⟩] := by
          rw [sendBlob, hdb]
        have hp : presentBlob db b = false := by rw [presentBlob, hdb]
        simp only [sendChildren]
        rw [hsend2]
        simp [hp, hsend1, List.takeWhile_cons, List.dropWhile_cons, List.all_cons,
          foundItems]

/-! ## Concrete instances for witnesses and counterexamples -/

/-- A small concrete bao model (used only to instantiate witnesses and
counterexamples); its extractor satisfies the size law. -/
def toyBao : BaoModel where
  hashFn c := [c.length % 256]
  nodesFn c := List.replicate (64 * (numChunks c.length - 1)) 0
  extract content _ _ _ :=
    leBytes 8 content.length ++
      (List.replicate (64 * (numChunks content.length - 1)) 0 ++ content)

theorem toyBao_law : ExtractSizeLaw toyBao := by
  intro content outboard
  simp only [toyBao, List.length_append, leBytes_length, List.length_replicate,
    encodedSize, outboardSize]
  omega

def exCollHash : Hash := [0]
def exMissHash : Hash := [1]
def exBlobHash : Hash := [2]

/-- A manifest whose first child is missing from `exDb`. -/
def exManifest : Collection := ⟨"collection", [⟨"a", exMissHash⟩, ⟨"b", exBlobHash⟩], 5⟩

/-- A database holding one collection entry and the second child only. -/
def exDb : Db := [(exCollHash, .collection [9, 9] [7]), (exBlobHash, .blob [8] "p" 3)]

def exParse : List Nat → Option Collection := fun _ => some exManifest
def exFs : String → List Nat := fun _ => [5, 5, 5]

/-- An empty manifest and its parser (for the all-children-served witness). -/
def exManifest0 : Collection := ⟨"collection", [], 5⟩

def exParse0 : List Nat → Option Collection := fun _ => some exManifest0

/-! ## Claim C2 -/

/-- C2: a handshake whose version differs from the hard-coded current version
or whose token differs from the provider's configured token is rejected: the
provider writes nothing on the stream and the handler returns `Err`, which
closes the stream. -/
theorem handshake_reject_closes_silently (m : BaoModel)
    (parseC : List Nat → Option Collection) (fs : String → List Nat) (db : Db)
    (token : AuthToken) (cid : Nat) (h : Handshake) (reqs : List Request)
    (hbad : h.version ≠ VERSION ∨ h.token ≠ token) :
    streamSession m parseC fs db token cid (some h) reqs = ([], [], true) := by
  rcases hbad with hv | ht
  · simp only [streamSession, if_neg hv]
  · by_cases hv : h.version = VERSION
    · simp only [streamSession, if_pos hv, if_neg ht]
    · simp only [streamSession, if_neg hv]

/-- Witness for C2 at a concrete mismatching token. -/
theorem handshake_reject_witness :
    streamSession toyBao exParse exFs exDb [1, 2] 7 (some ⟨1, [3]⟩) []
      = ([], [], true) :=
  handshake_reject_closes_silently toyBao exParse exFs exDb [1, 2] 7 ⟨1, [3]⟩ []
    (Or.inr (by decide))

/-! ## Claim C3 -/

/-- C3: a request whose hash is absent from the database or maps to an
individual blob descriptor (root requests are answered only for collections)
gets a `NotFound` response and a `TransferAborted` event. -/
theorem root_request_missing_or_blob_not_found (m : BaoModel)
    (parseC : List Nat → Option Collection) (fs : String → List Nat) (db : Db)
    (cid : Nat) (req : Request)
    (h : dbLookup db req.name = none ∨
      ∃ ob path size, dbLookup db req.name = some (.blob ob path size)) :
    handleRequest m parseC fs db cid req =
      ([.record ⟨req.id, .notFound⟩],
       [.requestReceived cid req.id req.name, .transferAborted cid req.id],
       false) := by
  rcases h with h | ⟨ob, path, size, h⟩ <;> simp only [handleRequest, h]

/-- Witness for C3: the empty database at a concrete request. -/
theorem root_request_not_found_witness :
    handleRequest toyBao exParse exFs [] 7 ⟨1, [0]⟩ =
      ([.record ⟨1, .notFound⟩],
       [.requestReceived 7 1 [0], .transferAborted 7 1], false) :=
  root_request_missing_or_blob_not_found toyBao exParse exFs [] 7 ⟨1, [0]⟩
    (Or.inl (by decide))

/-! ## Claim C6 -/

/-- C6: a `NotFound` response makes the getter fail with the not-found error;
the item sequence ends with that error item and contains no `Done`. -/
theorem getter_not_found_ends_with_error (avail : Nat) (decodeOk : Bool) :
    getterRun (some .notFound) avail decodeOk
      = .items [.ok .connected, .err "data not found"] ∧
    ([GetItem.ok .connected, GetItem.err "data not found"].getLast?
      = some (.err "data not found")) ∧
    ∀ size, GetItem.ok (.done size) ∉
      [GetItem.ok .connected, GetItem.err "data not found"] := by
  refine ⟨rfl, rfl, ?_⟩
  intro size hmem
  simp at hmem

/-! ## Claim C9 -/

/-- C9: when the peer delivers fewer than `encodedSize size` payload bytes
before ending the stream, `read_n`'s `unwrap` of the short `read_exact`
panics; the getter produces no item sequence at all, in particular no error
item. -/
theorem getter_short_read_panics (size avail : Nat) (ob : List Nat)
    (decodeOk : Bool) (hmax : ¬ size > MAX_DATA_SIZE)
    (hshort : avail < encodedSize size) :
    getterRun (some (.found size ob)) avail decodeOk
      = .panicked [.ok .connected, .ok (.requested size)] ∧
    ∀ l : List GetItem, getterRun (some (.found size ob)) avail decodeOk
      ≠ .items l := by
  have hr : readN avail (encodedSize size) = none := by
    rw [readN, if_neg (by omega)]
  constructor
  · simp only [getterRun, if_neg hmax, hr]
  · intro l hcontra
    simp only [getterRun, if_neg hmax, hr] at hcontra
    exact GetterOutcome.noConfusion hcontra

/-- Witness for C9: a zero-length blob whose stream ends immediately (the
combined encoding of an empty blob is its 8-byte header, none of which
arrives). -/
theorem getter_short_read_panics_witness :
    getterRun (some (.found 0 [])) 0 true
      = .panicked [.ok .connected, .ok (.requested 0)] :=
  (getter_short_read_panics 0 0 [] true (by decide) (by decide)).1

/-! ## Claim C10 -/

/-- C10: the manifest built and stored by `create_collection` is always named
by the fixed string "collection", whatever the data sources. -/
theorem create_collection_manifest_name (m : BaoModel)
    (serializeC : Collection → List Nat) (fs : String → List Nat)
    (sources : List DataSource) :
    (createCollection m serializeC fs sources).2.1.name = "collection" := rfl

/-! ## Claim C1 -/

/-- C1 counterexample: in `exDb` the manifest's first child is missing, so the
collection stops early; yet the provider emits `TransferCompleted` (the send
after the `for` loop runs unconditionally, provider.rs 332–335) and never
emits `TransferAborted`, contradicting the claim "on such an early stop it
emits TransferAborted ... and it emits TransferCompleted only when every
child was sent". -/
theorem c1_events_counterexample :
    (handleRequest toyBao exParse exFs exDb 7 ⟨1, exCollHash⟩).2.1
      = [.requestReceived 7 1 exCollHash, .transferCompleted 7 1] ∧
    (sendChildren toyBao exFs exDb 1 exManifest.blobs).2 = false ∧
    PEvent.transferAborted 7 1 ∉
      (handleRequest toyBao exParse exFs exDb 7 ⟨1, exCollHash⟩).2.1 ∧
    PEvent.transferCompleted 7 1 ∈
      (handleRequest toyBao exParse exFs exDb 7 ⟨1, exCollHash⟩).2.1 := by
  refine ⟨by decide, by decide, ?_, by decide⟩
  intro hmem
  exact absurd hmem (by decide)

/-- C1 (amended): when a child hash of the manifest is missing from the
database, the provider writes a `NotFound` response for that child and stops
sending the collection; on such an early stop it still emits
`TransferCompleted` (not `TransferAborted`) — the completion event does not
depend on every child having been sent. -/
theorem collection_missing_child_stops_and_completes (m : BaoModel)
    (parseC : List Nat → Option Collection) (fs : String → List Nat) (db : Db)
    (cid : Nat) (req : Request) (ob data : List Nat) (c : Collection)
    (hdb : dbLookup db req.name = some (.collection ob data))
    (hparse : parseC data = some c)
    (hmiss : c.blobs.dropWhile (presentBlob db) ≠ []) :
    (handleRequest m parseC fs db cid req).1
      = .record ⟨req.id, .foundCollection c.total_blobs_size⟩ ::
        .payload (m.extract data ob 0 data.length) ::
        (foundItems m fs db req.id (c.blobs.takeWhile (presentBlob db)) ++
          [.record ⟨req.id, .notFound⟩]) ∧
    (handleRequest m parseC fs db cid req).2.1
      = [.requestReceived cid req.id req.name,
         .transferCompleted cid req.id] := by
  constructor
  · simp only [handleRequest, hdb, hparse]
    rw [sendChildren_spec, if_neg hmiss]
  · simp only [handleRequest, hdb, hparse]

/-- Witness for the amended C1 at the concrete missing-child database. -/
theorem collection_missing_child_stops_witness :
    (handleRequest toyBao exParse exFs exDb 7 ⟨1, exCollHash⟩).1
      = .record ⟨1, .foundCollection exManifest.total_blobs_size⟩ ::
        .payload (toyBao.extract [7] [9, 9] 0 ([7] : List Nat).length) ::
        (foundItems toyBao exFs exDb 1
            (exManifest.blobs.takeWhile (presentBlob exDb)) ++
          [.record ⟨1, .notFound⟩]) ∧
    (handleRequest toyBao exParse exFs exDb 7 ⟨1, exCollHash⟩).2.1
      = [.requestReceived 7 1 exCollHash, .transferCompleted 7 1] :=
  collection_missing_child_stops_and_completes toyBao exParse exFs exDb 7
    ⟨1, exCollHash⟩ [9, 9] [7] exManifest (by decide) rfl (by decide)

/-! ## Claim C4 -/

/-- The wire layout claim C4 states: after the `FoundCollection` record the
manifest payload, then for EVERY child in manifest order one `Response`
record (with its combined-encoding payload when the child is found). -/
def c4ClaimedWire (m : BaoModel) (fs : String → List Nat) (db : Db) (id : Nat)
    (total : Nat) (manifestEnc : List Nat) (bs : List Blob) : List WireItem :=
  .record ⟨id, .foundCollection total⟩ :: .payload manifestEnc ::
    bs.flatMap (fun b => (sendBlob m fs db b.hash id).1)

/-- C4 counterexample: with the first child missing, the provider stops after
that child's `NotFound` record, so the second child gets no `Response` record
at all — the stream is not the claimed per-child sequence. -/
theorem c4_wire_counterexample :
    (handleRequest toyBao exParse exFs exDb 7 ⟨1, exCollHash⟩).1
      ≠ c4ClaimedWire toyBao exFs exDb 1 exManifest.total_blobs_size
          (toyBao.extract [7] [9, 9] 0 ([7] : List Nat).length)
          exManifest.blobs := by
  intro hcontra
  exact absurd hcontra (by decide)

/-- C4 (amended): after `FoundCollection` the stream carries the manifest's
combined encoding of exactly `encodedSize (manifest size)` bytes, then, for
each child in manifest order UP TO AND INCLUDING the first missing one, one
`Response` record and, when that child is found, exactly
`encodedSize (child size)` bytes — the slice-extractor output over the
re-opened file and the stored outboard with offset 0 and length `size`;
children after the first missing one get nothing. -/
theorem collection_payload_layout (m : BaoModel)
    (parseC : List Nat → Option Collection) (fs : String → List Nat) (db : Db)
    (cid : Nat) (req : Request) (ob data : List Nat) (c : Collection)
    (hdb : dbLookup db req.name = some (.collection ob data))
    (hparse : parseC data = some c)
    (hlaw : ExtractSizeLaw m)
    (hfs : ∀ b ∈ c.blobs, ∀ ob2 path size,
      dbLookup db b.hash = some (.blob ob2 path size) → (fs path).length = size) :
    (handleRequest m parseC fs db cid req).1
      = .record ⟨req.id, .foundCollection c.total_blobs_size⟩ ::
        .payload (m.extract data ob 0 data.length) ::
        (foundItems m fs db req.id (c.blobs.takeWhile (presentBlob db)) ++
          (if c.blobs.dropWhile (presentBlob db) = [] then []
           else [.record ⟨req.id, .notFound⟩])) ∧
    (m.extract data ob 0 data.length).length = encodedSize data.length ∧
    ∀ b ∈ c.blobs, ∀ ob2 path size,
      dbLookup db b.hash = some (.blob ob2 path size) →
      (sendBlob m fs db b.hash req.id).1
        = [.record ⟨req.id, .found⟩, .payload (m.extract (fs path) ob2 0 size)] ∧
      (m.extract (fs path) ob2 0 size).length = encodedSize size := by
  refine ⟨?_, hlaw data ob, ?_⟩
  · simp only [handleRequest, hdb, hparse]
    rw [sendChildren_spec]
  · intro b hb ob2 path size hlook
    have hfseq := hfs b hb ob2 path size hlook
    constructor
    · rw [sendBlob, hlook]
    · have hl := hlaw (fs path) ob2
      rw [hfseq] at hl
      exact hl

/-- Witness for the amended C4: a collection with no children (the child list
is exhausted with nothing missing), over the toy extractor. -/
theorem collection_payload_layout_witness :
    (handleRequest toyBao exParse0 exFs exDb 7 ⟨1, exCollHash⟩).1
      = .record ⟨1, .foundCollection exManifest0.total_blobs_size⟩ ::
        .payload (toyBao.extract [7] [9, 9] 0 ([7] : List Nat).length) ::
        (foundItems toyBao exFs exDb 1
            (exManifest0.blobs.takeWhile (presentBlob exDb)) ++
          (if exManifest0.blobs.dropWhile (presentBlob exDb) = [] then []
           else [.record ⟨1, .notFound⟩])) ∧
    (toyBao.extract [7] [9, 9] 0 ([7] : List Nat).length).length
      = encodedSize ([7] : List Nat).length :=
  ⟨(collection_payload_layout toyBao exParse0 exFs exDb 7 ⟨1, exCollHash⟩
      [9, 9] [7] exManifest0 (by decide) rfl toyBao_law
      (by intro b hb; exact absurd hb (List.not_mem_nil b))).1,
   (collection_payload_layout toyBao exParse0 exFs exDb 7 ⟨1, exCollHash⟩
      [9, 9] [7] exManifest0 (by decide) rfl toyBao_law
      (by intro b hb; exact absurd hb (List.not_mem_nil b))).2.1⟩

/-! ## Claim C5 -/

theorem collectSources_blobs (m : BaoModel) (fs : String → List Nat)
    (srcs : List DataSource) : ∀ db : Db,
    (collectSources m fs db srcs).2.1
      = srcs.map (fun s => Blob.mk (s.name.getD (basename s.path))
          (m.hashFn (fs s.path))) := by
  induction srcs with
  | nil => intro db; rfl
  | cons s rest ih =>
    intro db
    dsimp only [collectSources]
    rw [List.map_cons, ih]
    rfl

/-- C5: the manifest built by `create_collection` lists the blobs in input
order, each named by the explicit name when one was supplied (the empty
string included) and by the path's basename otherwise, each hashed over its
content; in particular the spec's three-source example yields the names
`["foo", "bat", ""]` with every hash equal to the hash of the empty byte
string. -/
theorem create_collection_names_in_order (m : BaoModel)
    (serializeC : Collection → List Nat) (fs : String → List Nat) :
    (∀ sources, (createCollection m serializeC fs sources).2.1.blobs
      = sources.map (fun s => Blob.mk (s.name.getD (basename s.path))
          (m.hashFn (fs s.path)))) ∧
    (createCollection m serializeC (fun _ => [])
        [⟨"foo", none⟩, ⟨"bar", some "bat"⟩, ⟨"baz", some ""⟩]).2.1.blobs
      = [⟨"foo", m.hashFn []⟩, ⟨"bat", m.hashFn []⟩, ⟨"", m.hashFn []⟩] := by
  constructor
  · intro sources
    exact collectSources_blobs m fs sources []
  · have hb := collectSources_blobs m (fun _ => ([] : List Nat))
      [⟨"foo", none⟩, ⟨"bar", some "bat"⟩, ⟨"baz", some ""⟩] []
    simp only [List.map_cons, List.map_nil, Option.getD_none,
      Option.getD_some] at hb
    rw [show basename "foo" = "foo" from by decide] at hb
    exact hb

/-! ## Claim C7 -/

/-- The stored-size invariant: a blob descriptor's `size` is the little-endian
decode of its outboard's first 8 bytes; collection entries are unconstrained. -/
def BlobSizeInv : BlobOrCollection → Prop
  | .blob ob _ size => leDecode (ob.take 8) = size
  | .collection _ _ => True

theorem dbInsert_forall (db : Db) (h : Hash) (v : BlobOrCollection)
    {P : BlobOrCollection → Prop}
    (hdb : ∀ e ∈ db, P e.2) (hv : P v) :
    ∀ e ∈ dbInsert db h v, P e.2 := by
  intro e he
  rw [dbInsert] at he
  split at he
  · obtain ⟨a, ha, rfl⟩ := List.mem_map.mp he
    by_cases hc : a.1 = h
    · simp only [if_pos hc]
      exact hv
    · simp only [if_neg hc]
      exact hdb a ha
  · rcases List.mem_append.mp he with hmem | hmem
    · exact hdb e hmem
    · rcases List.mem_singleton.mp hmem with rfl
      exact hv

theorem collectSources_inv (m : BaoModel) (fs : String → List Nat)
    (srcs : List DataSource) : ∀ db : Db,
    (∀ e ∈ db, BlobSizeInv e.2) →
    ∀ e ∈ (collectSources m fs db srcs).1, BlobSizeInv e.2 := by
  induction srcs with
  | nil => intro db hdb; exact hdb
  | cons s rest ih =>
    intro db hdb
    exact ih _ (dbInsert_forall db _ _ hdb rfl)

theorem createCollection_inv (m : BaoModel) (serializeC : Collection → List Nat)
    (fs : String → List Nat) (sources : List DataSource) :
    ∀ e ∈ (createCollection m serializeC fs sources).1, BlobSizeInv e.2 := by
  have hbase : ∀ e ∈ (collectSources m fs [] sources).1, BlobSizeInv e.2 :=
    collectSources_inv m fs sources []
      (by intro e he; exact absurd he (List.not_mem_nil e))
  exact dbInsert_forall _ _ _ hbase trivial

theorem dbLookup_mem (db : Db) (h : Hash) (v : BlobOrCollection)
    (hl : dbLookup db h = some v) : ∃ k, (k, v) ∈ db := by
  rcases hf : db.find? (fun e => decide (e.1 = h)) with _ | e
  · rw [dbLookup, hf] at hl
    exact absurd hl (by simp)
  · have hmem := List.mem_of_find?_eq_some hf
    rw [dbLookup, hf] at hl
    obtain ⟨k, val⟩ := e
    simp only [Option.map_some'] at hl
    obtain rfl : val = v := by injection hl
    exact ⟨k, hmem⟩

/-- C7: every blob descriptor stored by `create_collection` has its `size`
field equal to the content length decoded from the outboard's 8-byte
little-endian header. The embedding is pure: the returned database value is
never mutated after the build, so the invariant holds for its lifetime. -/
theorem created_blob_size_matches_header (m : BaoModel)
    (serializeC : Collection → List Nat) (fs : String → List Nat)
    (sources : List DataSource) (h : Hash) (ob : List Nat) (path : String)
    (size : Nat)
    (hdb : dbLookup (createCollection m serializeC fs sources).1 h
      = some (.blob ob path size)) :
    leDecode (ob.take 8) = size := by
  obtain ⟨k, hmem⟩ := dbLookup_mem _ _ _ hdb
  exact createCollection_inv m serializeC fs sources (k, .blob ob path size) hmem

/-- Witness for C7: one three-byte source under the toy model. -/
theorem created_blob_size_witness :
    leDecode (([3, 0, 0, 0, 0, 0, 0, 0] : List Nat).take 8) = 3 :=
  created_blob_size_matches_header toyBao (fun _ => []) exFs [⟨"foo", none⟩]
    [3] [3, 0, 0, 0, 0, 0, 0, 0] "foo" 3 (by decide)

/-! ## Claim C8 -/

def zeros32 : ByteVec 32 :=
  ⟨List.replicate 32 0, by
    refine ⟨by simp, ?_⟩
    intro b hb
    rw [List.eq_of_mem_replicate hb]
    norm_num⟩

def localhostOctets : ByteVec 4 := ⟨[127, 0, 0, 1], by refine ⟨rfl, ?_⟩; decide⟩

def samplePort : TPort := ⟨1234, by norm_num⟩

/-- The spec's ticket test vector: address `127.0.0.1:1234`. -/
def sampleTicket : Ticket :=
  ⟨zeros32, zeros32, .v4 localhostOctets samplePort, zeros32⟩

/-- C8: decoding the string produced by encoding any ticket yields the ticket
back exactly; a string containing any character outside the URL-safe base
alphabet fails to decode; and every truncation of every encoded ticket (any
strict prefix of its character string) fails to decode. -/
theorem ticket_codec_roundtrip_and_failure :
    (∀ t : Ticket, ticketDecode (ticketEncode t) = some t) ∧
    (∀ s : String, (∃ c ∈ s.data, charSextet c = none) → ticketDecode s = none) ∧
    (∀ (t : Ticket) (n : Nat), n < (ticketEncode t).data.length →
      ticketDecode (String.mk ((ticketEncode t).data.take n)) = none) := by
  refine ⟨ticket_roundtrip, ?_, ?_⟩
  · intro s hs
    have h1 := mapM_charSextet_none s.data hs
    have h2 : b64Decode s = none := by
      show (s.data.mapM charSextet >>= fun sx =>
        pure (fromBits (sx.flatMap (natBits 6)))) = none
      rw [h1]
      rfl
    show (b64Decode s >>= fun bytes => deserializeTicket bytes) = none
    rw [h2]
    rfl
  · intro t n hn
    exact ticketDecode_take_none t n hn

set_option maxRecDepth 20000 in
/-- Witness for C8: the spec's sample ticket round-trips; a string with the
out-of-alphabet character `!` is rejected; and the sample ticket's encoding
truncated to 20 characters is rejected. -/
theorem ticket_codec_witness :
    ticketDecode (ticketEncode sampleTicket) = some sampleTicket ∧
    ticketDecode (String.mk [Char.ofNat 33]) = none ∧
    ticketDecode (String.mk ((ticketEncode sampleTicket).data.take 20)) = none :=
  ⟨ticket_codec_roundtrip_and_failure.1 sampleTicket,
   ticket_codec_roundtrip_and_failure.2.1 (String.mk [Char.ofNat 33])
     ⟨Char.ofNat 33, by decide, by decide⟩,
   ticket_codec_roundtrip_and_failure.2.2 sampleTicket 20 (by decide)⟩

end Sendme
